import Mathlib

/-!
Shallow embedding of the rye conversation codec and streaming block renderer
(src/conversation.rs, src/streaming.rs), with theorems checking the
specification claims about them.  Text is modelled as `List Char` so that the
character-level behaviour of the Rust string functions can be reproduced
exactly and reasoned about by induction.
-/

/-- Text is a sequence of characters, mirroring a Rust `String`. -/
abbrev Str := List Char

/-- Unicode White_Space characters: the set recognised by Rust
`char::is_whitespace` (used by `str::trim`). -/
def rust_is_whitespace (c : Char) : Bool :=
  c = ' ' || c = '\t' || c = '\n' || c = '\x0b' || c = '\x0c' || c = '\r' ||
  c = '\u0085' || c = '\u00a0' || c = '\u1680' ||
  ('\u2000' ≤ c && c ≤ '\u200a') ||
  c = '\u2028' || c = '\u2029' || c = '\u202f' || c = '\u205f' || c = '\u3000'

/-- Control characters (Unicode category Cc), as recognised by Rust
`char::is_control`. -/
def rust_is_control (c : Char) : Bool :=
  c.toNat ≤ 0x1f || (0x7f ≤ c.toNat && c.toNat ≤ 0x9f)

/-- Remove elements satisfying `p` from both ends of a list.  With
`p = rust_is_whitespace` this is Rust `str::trim`; with blank-line detection
it is the leading/trailing blank-line stripping loop of the parser. -/
def trim_ends (p : α → Bool) (l : List α) : List α :=
  List.rdropWhile p (l.dropWhile p)

/-- Rust `str::trim`. -/
def rust_trim (s : Str) : Str := trim_ends rust_is_whitespace s

/-- Split a character list at every newline.  Always returns a non-empty list
of newline-free segments; `"a\n"` gives `["a", ""]`. -/
def split_nl : Str → List Str
  | [] => [[]]
  | c :: rest =>
    if c = '\n' then [] :: split_nl rest
    else
      match split_nl rest with
      | [] => [[c]]
      | l :: ls => (c :: l) :: ls

/-- Drop a single trailing carriage return, as Rust `str::lines` does for
each produced line. -/
def strip_cr (l : Str) : Str := if l.getLast? = some '\r' then l.dropLast else l

/-- Rust `str::lines`: split at newlines, drop the segment after a final
newline (or the single empty segment of the empty string), and strip one
trailing carriage return from each line. -/
def rust_lines (s : Str) : List Str :=
  let parts := split_nl s
  let parts := if parts.getLast? = some [] then parts.dropLast else parts
  parts.map strip_cr

/-- Rust `Vec::join("\n")` on a vector of lines. -/
def join_lines : List Str → Str
  | [] => []
  | [l] => l
  | l :: l2 :: ls => l ++ '\n' :: join_lines (l2 :: ls)

/-- Rust `str::trim_start_matches("# ")` at the one call site the parser
has: repeatedly remove a leading `"# "` while present.  Written as direct
structural recursion on the character list. -/
def trim_start_matches_hash : Str → Str
  | '#' :: ' ' :: rest => trim_start_matches_hash rest
  | s => s

/-! ## Conversation codec (src/conversation.rs) -/

/-- Role heading chosen by `Conversation::add_message` and
`Conversation::rewrite_file_with_title`: `"## You"` for role `"user"`,
`"## Assistant"` for every other role string. -/
def role_header (role : Str) : Str :=
  if role = "user".toList then "## You".toList else "## Assistant".toList

/-- Bytes written by `Conversation::write_header`: `"# <title>\n\n"` when a
title is set, `"# Conversation <id>\n\n"` otherwise. -/
def write_header_bytes (id : Str) (title : Option Str) : Str :=
  match title with
  | some t => "# ".toList ++ t ++ "\n\n".toList
  | none => "# Conversation ".toList ++ id ++ "\n\n".toList

/-- Bytes appended to the file by one `Conversation::add_message` call:
`"\n<role heading>\n\n<content>\n\n"`. -/
def add_message_bytes (role content : Str) : Str :=
  '\n' :: role_header role ++ "\n\n".toList ++ content ++ "\n\n".toList

/-- File contents after one `add_message` append on an existing file. -/
def append_turn_file (file : Str) (role content : Str) : Str :=
  file ++ add_message_bytes role content

/-- File contents after `write_header` followed by sequential `add_message`
appends for each turn, i.e. the document the incremental writes produce. -/
def incremental_file (id : Str) (title : Option Str) (msgs : List (Str × Str)) : Str :=
  msgs.foldl (fun file m => append_turn_file file m.1 m.2) (write_header_bytes id title)

/-- The list of byte chunks the incremental strategy writes after the
header, one per `add_message` call. -/
def append_chunks (msgs : List (Str × Str)) : List Str :=
  msgs.map (fun m => add_message_bytes m.1 m.2)

/-- Document produced by `Conversation::new` (title unset) followed by the
given `add_message` calls. -/
def serialize_via_appends (id : Str) (msgs : List (Str × Str)) : Str :=
  incremental_file id none msgs

/-- Full serialization performed by `Conversation::rewrite_file_with_title`:
header, then for each stored message the inline-formatted
`"\n<role heading>\n\n<content>\n\n"` block, accumulated in order. -/
def rewrite_file_with_title (id : Str) (title : Option Str)
    (msgs : List (Str × Str)) : Str :=
  msgs.foldl
    (fun content m =>
      content ++
        ('\n' :: (if m.1 = "user".toList then "## You".toList else "## Assistant".toList) ++
          "\n\n".toList ++ m.2 ++ "\n\n".toList))
    (write_header_bytes id title)

/-- Character replacement of `sanitize_filename`: filesystem-reserved
characters and control characters become an underscore. -/
def sanitize_char (c : Char) : Char :=
  if c = '/' || c = '\\' || c = ':' || c = '*' || c = '?' || c = '"' ||
      c = '<' || c = '>' || c = '|' then '_'
  else if rust_is_control c then '_'
  else c

/-- Title sanitization (`sanitize_filename`): map each character through
`sanitize_char`, then trim surrounding whitespace. -/
def sanitize_filename (t : Str) : Str := rust_trim (t.map sanitize_char)

/-- Line-blank test used by the parser: `l.trim().is_empty()`. -/
def line_is_blank (l : Str) : Bool := (rust_trim l).isEmpty

/-- Inner collection loop of `parse_markdown_conversation`: take lines until
one starts with `"## "`; returns the collected block and the remaining
lines (beginning with the terminating heading line, when there is one). -/
def collect_block : List Str → List Str × List Str
  | [] => ([], [])
  | l :: rest =>
    if ("## ".toList).isPrefixOf l then ([], l :: rest)
    else
      let (b, r) := collect_block rest
      (l :: b, r)

theorem collect_block_rest_length : ∀ ls : List Str, (collect_block ls).2.length ≤ ls.length := by
  intro ls
  induction ls with
  | nil => simp [collect_block]
  | cons l rest ih =>
    simp only [collect_block]
    split
    · simp
    · simpa using Nat.le_succ_of_le ih

/-- Leading/trailing blank-line stripping applied to a collected block. -/
def strip_blank_lines (b : List Str) : List Str := trim_ends line_is_blank b

/-- Outer scan loop of `parse_markdown_conversation`: recognise the two role
headings by prefix, collect each block, strip blank edges, and drop turns
whose stripped block is empty.  The loop advances past at least one line
per iteration, so the number of iterations is bounded by the number of
lines; that bound is the first argument, a structural counter that makes
the function evaluate by kernel reduction.  `parse_messages` below applies
it with the exact line count. -/
def parse_messages_loop : Nat → List Str → List (Str × Str)
  | _, [] => []
  | 0, _ :: _ => []
  | fuel + 1, l :: rest =>
    if ("## You".toList).isPrefixOf l then
      let br := collect_block rest
      let b := strip_blank_lines br.1
      if b = [] then parse_messages_loop fuel br.2
      else ("user".toList, join_lines b) :: parse_messages_loop fuel br.2
    else if ("## Assistant".toList).isPrefixOf l then
      let br := collect_block rest
      let b := strip_blank_lines br.1
      if b = [] then parse_messages_loop fuel br.2
      else ("assistant".toList, join_lines b) :: parse_messages_loop fuel br.2
    else parse_messages_loop fuel rest

/-- The message scan of `parse_markdown_conversation`. -/
def parse_messages (ls : List Str) : List (Str × Str) :=
  parse_messages_loop ls.length ls

theorem parse_messages_loop_congr :
    ∀ (fuel fuel' : Nat) (ls : List Str), ls.length ≤ fuel → ls.length ≤ fuel' →
      parse_messages_loop fuel ls = parse_messages_loop fuel' ls := by
  intro fuel
  induction fuel with
  | zero =>
    intro fuel' ls h h'
    have hnil : ls = [] := List.length_eq_zero.mp (Nat.le_zero.mp h)
    subst hnil
    cases fuel' <;> rfl
  | succ f ih =>
    intro fuel' ls h h'
    cases ls with
    | nil => cases fuel' <;> rfl
    | cons l rest =>
      cases fuel' with
      | zero => simp at h'
      | succ f2 =>
        have hb := collect_block_rest_length rest
        have hrest : rest.length ≤ f := by simpa using h
        have hrest2 : rest.length ≤ f2 := by simpa using h'
        have e1 : parse_messages_loop f (collect_block rest).2 =
            parse_messages_loop f2 (collect_block rest).2 :=
          ih f2 _ (Nat.le_trans hb hrest) (Nat.le_trans hb hrest2)
        have e2 : parse_messages_loop f rest = parse_messages_loop f2 rest :=
          ih f2 rest hrest hrest2
        simp only [parse_messages_loop, e1, e2]

theorem parse_messages_nil : parse_messages [] = [] := rfl

theorem parse_messages_cons (l : Str) (rest : List Str) :
    parse_messages (l :: rest) =
      (if ("## You".toList).isPrefixOf l then
        let br := collect_block rest
        let b := strip_blank_lines br.1
        if b = [] then parse_messages br.2
        else ("user".toList, join_lines b) :: parse_messages br.2
      else if ("## Assistant".toList).isPrefixOf l then
        let br := collect_block rest
        let b := strip_blank_lines br.1
        if b = [] then parse_messages br.2
        else ("assistant".toList, join_lines b) :: parse_messages br.2
      else parse_messages rest) := by
  have e1 : parse_messages_loop rest.length (collect_block rest).2 =
      parse_messages (collect_block rest).2 :=
    parse_messages_loop_congr rest.length _ _ (collect_block_rest_length rest)
      (Nat.le_refl _)
  show parse_messages_loop (rest.length + 1) (l :: rest) = _
  simp only [parse_messages_loop, e1]
  rfl

/-- Title extraction of `parse_markdown_conversation`: when the first line
starts with `"# "`, strip repeated `"# "` prefixes and trim; a result
starting with `"Conversation "` is the reserved placeholder and leaves the
title unset.  Returns the title and the lines the message scan starts from. -/
def parse_title (ls : List Str) : Option Str × List Str :=
  match ls with
  | [] => (none, [])
  | l0 :: rest =>
    if ("# ".toList).isPrefixOf l0 then
      let t := rust_trim (trim_start_matches_hash l0)
      ((if ("Conversation ".toList).isPrefixOf t then none else some t), rest)
    else (none, l0 :: rest)

/-- The full `parse_markdown_conversation` function: returns the parsed
messages and the optional title. -/
def parse_markdown_conversation (content : Str) : List (Str × Str) × Option Str :=
  let ls := rust_lines content
  let tr := parse_title ls
  (parse_messages tr.2, tr.1)

/-! ## Conversation lookup (`Conversation::load`, `find_conversation_file`) -/

/-- Rust `Path::ends_with`: the components of `child` must be a suffix of
the components of the path (whole components only, per the Rust
documentation; `Path::new("foo.md").ends_with("md")` is false). -/
def path_ends_with (p child : List Str) : Bool := child.isSuffixOf p

/-- Substring test, modelling Rust `str::contains(&str)`: true when the
needle occurs contiguously in the haystack. -/
def is_substring (needle : Str) : Str → Bool
  | [] => needle.isEmpty
  | c :: t => needle.isPrefixOf (c :: t) || is_substring needle t

/-- Join path components with the separator character. -/
def join_sep (sep : Char) : List Str → Str
  | [] => []
  | [p] => p
  | p :: q :: rest => p ++ sep :: join_sep sep (q :: rest)

/-- Rust `Path::to_str` on a components list: components joined by the
separator character. -/
def path_to_string (p : List Str) : Str := join_sep '/' p

/-- The filename-scan of `find_conversation_file`: iterate over directory
entries in order; an entry whose joined path passes the
`path.ends_with("md")` test and whose path string contains the id as a
substring is returned.  The directory is modelled as its component list
plus the entry names in iteration order. -/
def find_conversation_file (dir : List Str) (entries : List Str) (id : Str) : Option Str :=
  match entries with
  | [] => none
  | name :: rest =>
    if path_ends_with (dir ++ [name]) ["md".toList] &&
        is_substring id (path_to_string (dir ++ [name])) then some name
    else find_conversation_file dir rest id

/-- Filename resolution of `Conversation::load`: try the exact filename
`<id>.md` first; otherwise fall back to `find_conversation_file`; error
(`NotFound`) when neither matches. -/
def load_resolve (dir : List Str) (entries : List Str) (id : Str) : Except Unit Str :=
  if (id ++ ".md".toList) ∈ entries then Except.ok (id ++ ".md".toList)
  else
    match find_conversation_file dir entries id with
    | some name => Except.ok name
    | none => Except.error ()

/-! ## Streaming block renderer (src/streaming.rs)

The display sink (`render_markdown`) is typed fallible in the source
(`Result<(), _>`), so the embedding is parameterised by the outcome of each
sink call: `sink n` is the result of the n-th `render_markdown` invocation.
The blank-line separator `println!()` is modelled as an unconditional
delivery of a newline to the display.  `outputs` records, in order, every
block of text handed to the display. -/

structure RenderState where
  full_response : Str
  current_line : Str
  buffer : Str
  in_code_block : Bool
  outputs : List Str
  calls : Nat
deriving Repr, DecidableEq

/-- Result of the fragment sequence for each sink call index. -/
abbrev Sink := Nat → Bool

/-- One `render_markdown(text)?` call: on success the text is delivered to
the display and the call counter advances; on failure the `?` operator
makes the whole stream function return the error. -/
def render_markdown_call (sink : Sink) (s : RenderState) (text : Str) :
    Except Unit RenderState :=
  if sink s.calls then
    Except.ok { s with outputs := s.outputs ++ [text], calls := s.calls + 1 }
  else Except.error ()

/-- The `is_list_item` helper of src/streaming.rs.  Rust
`char::is_numeric` is modelled as the ASCII digit test; both the list-item
branch and the fallthrough branch accumulate the line identically, so the
distinction never changes the state. -/
def is_list_item (trimmed : Str) : Bool :=
  trimmed.head? = some '-' || trimmed.head? = some '*' || trimmed.head? = some '+' ||
  (decide (trimmed.length > 2) &&
    (trimmed.head?.elim false Char.isDigit) && trimmed.get? 1 = some '.')

/-- Flush the pending buffer when it is non-empty (the
`if !buffer.is_empty() { render_markdown(&buffer)?; buffer.clear(); }`
pattern). -/
def flush_buffer (sink : Sink) (s : RenderState) : Except Unit RenderState :=
  if s.buffer ≠ [] then
    Except.map (fun s : RenderState => { s with buffer := [] })
      (render_markdown_call sink s s.buffer)
  else Except.ok s

/-- Closing-fence handling: render the buffer (which already holds the
closing fence line) and leave the code block. -/
def render_and_close_fence (sink : Sink) (s : RenderState) : Except Unit RenderState :=
  Except.map (fun s2 : RenderState => { s2 with buffer := [], in_code_block := false })
    (render_markdown_call sink s s.buffer)

/-- Classification of a completed line (one that ends in a newline), the
body of the newline arm of the per-character loop: fence
markers toggle the code block and flush it on close, lines inside a fence
accumulate, blank lines flush the buffer and emit a separator, headings are
flushed alone after the pending buffer, and list items or plain text
accumulate.  The completed line (newline included) is `current_line`, which
is cleared afterwards. -/
def process_line_end (sink : Sink) (s : RenderState) : Except Unit RenderState :=
  let trimmed := rust_trim s.current_line
  Except.map (fun s2 : RenderState => { s2 with current_line := [] })
    (if ("```".toList).isPrefixOf trimmed then
      if s.in_code_block then
        render_and_close_fence sink { s with buffer := s.buffer ++ s.current_line }
      else
        Except.map
          (fun s2 : RenderState =>
            { s2 with buffer := s2.buffer ++ s2.current_line, in_code_block := true })
          (flush_buffer sink s)
    else if s.in_code_block then
      Except.ok { s with buffer := s.buffer ++ s.current_line }
    else if trimmed = [] then
      Except.map
        (fun s2 : RenderState => { s2 with outputs := s2.outputs ++ [['\n']] })
        (flush_buffer sink s)
    else if trimmed.head? = some '#' then
      Except.bind (flush_buffer sink s)
        (fun s2 => render_markdown_call sink s2 s2.current_line)
    else if is_list_item trimmed then
      Except.ok { s with buffer := s.buffer ++ s.current_line }
    else
      Except.ok { s with buffer := s.buffer ++ s.current_line })

/-- Body of the per-character loop of `stream_and_render_response`: push the
character onto `current_line`; on a newline classify the completed line. -/
def process_char (sink : Sink) (s : RenderState) (ch : Char) :
    Except Unit RenderState :=
  let s := { s with current_line := s.current_line ++ [ch] }
  if ch = '\n' then process_line_end sink s else Except.ok s

/-- Processing of one `Ok(chunk)` fragment: append it to `full_response`
and run the per-character loop over its characters. -/
def process_chunk (sink : Sink) (s : RenderState) (chunk : Str) :
    Except Unit RenderState :=
  if chunk = [] then Except.ok s
  else List.foldlM (process_char sink) { s with full_response := s.full_response ++ chunk } chunk

/-- The fragment consumption loop: `Ok` chunks are processed; an `Err`
fragment is reported and breaks the loop (later fragments are never
consumed). -/
def run_fragments (sink : Sink) : RenderState → List (Except Unit Str) → Except Unit RenderState
  | s, [] => Except.ok s
  | s, Except.ok c :: rest =>
    Except.bind (process_chunk sink s c) (fun s => run_fragments sink s rest)
  | s, Except.error _ :: _ => Except.ok s

/-- State at entry of `stream_and_render_response`. -/
def initial_render_state : RenderState :=
  { full_response := [], current_line := [], buffer := [], in_code_block := false,
    outputs := [], calls := 0 }

/-- End-of-stream handling: a partially accumulated `current_line` is
appended to the buffer, and a non-empty buffer is rendered. -/
def finish_stream (sink : Sink) (s : RenderState) : Except Unit RenderState :=
  let s := if s.current_line ≠ [] then { s with buffer := s.buffer ++ s.current_line } else s
  if s.buffer ≠ [] then render_markdown_call sink s s.buffer else Except.ok s

/-- The whole `stream_and_render_response` function.  On success it returns
the accumulated `full_response` (the value the Rust function returns)
paired with the ordered list of blocks delivered to the display sink. -/
def stream_and_render_response (sink : Sink) (frags : List (Except Unit Str)) :
    Except Unit (Str × List Str) :=
  Except.bind (run_fragments sink initial_render_state frags)
    (fun s => Except.map (fun s : RenderState => (s.full_response, s.outputs))
      (finish_stream sink s))

/-! ## Derived definitions used in the claim statements -/

/-- Role string recovered by the parser for a turn serialized with
`role_header role`: `"user"` when the role was exactly `"user"`,
`"assistant"` otherwise. -/
def parsed_role (r : Str) : Str :=
  if r = "user".toList then "user".toList else "assistant".toList

/-- The lines a serialized document contains after the header for a given
message list: for each turn a blank line, the role heading, a blank line,
the content lines, and a closing blank line. -/
def body_lines : List (Str × Str) → List Str
  | [] => []
  | m :: tl => [] :: role_header m.1 :: [] :: split_nl m.2 ++ [] :: body_lines tl

/-- Conditions on a turn content under which the parser reproduces it
exactly: no content line starts with the section delimiter `"## "`, and the
first and last content lines are not blank (so the parser's blank-edge
stripping removes nothing). -/
def content_ok (c : Str) : Bool :=
  ((split_nl c).all fun l => !(("## ".toList).isPrefixOf l)) &&
  ((split_nl c).head?.all fun l => !(line_is_blank l)) &&
  ((split_nl c).getLast?.all fun l => !(line_is_blank l))

/-- Conditions on a conversation identifier under which the header line
round-trips: non-empty, free of newlines and carriage returns, and not
ending in whitespace (a generated UUID satisfies all of them). -/
def id_ok (id : Str) : Prop :=
  id ≠ [] ∧ '\n' ∉ id ∧ '\r' ∉ id ∧
    (id.getLast?.all fun c => !rust_is_whitespace c) = true

instance : DecidablePred id_ok := fun id => by
  unfold id_ok
  infer_instance

/-- The non-whitespace character subsequence of a text, the observable the
streaming no-drop guarantee is stated about. -/
def nonws (s : Str) : Str := s.filter (fun c => !rust_is_whitespace c)

/-- Number of lines of a text whose trimmed form starts with a code-fence
marker. -/
def fence_marker_count (s : Str) : Nat :=
  (split_nl s).countP (fun l => ("```".toList).isPrefixOf (rust_trim l))

/-! ## Generic lemmas about the text helpers -/

theorem mem_of_mem_trim_ends {p : α → Bool} {l : List α} {x : α}
    (hx : x ∈ trim_ends p l) : x ∈ l := by
  have h1 : x ∈ l.dropWhile p :=
    (List.rdropWhile_prefix p (l.dropWhile p)).sublist.subset hx
  exact (List.dropWhile_sublist p).subset h1

theorem dropWhile_cons_head {p : α → Bool} {l t : List α} {a : α}
    (h : List.dropWhile p l = a :: t) : p a = false := by
  have hidem : List.dropWhile p (List.dropWhile p l) = List.dropWhile p l :=
    List.dropWhile_idempotent _ _
  rw [h, List.dropWhile_cons] at hidem
  by_cases hpa : p a
  · rw [if_pos hpa] at hidem
    have hle := (List.dropWhile_sublist (l := t) p).length_le
    rw [hidem] at hle
    simp at hle
  · simpa using hpa

theorem dropWhile_trim_ends (p : α → Bool) (l : List α) :
    (trim_ends p l).dropWhile p = trim_ends p l := by
  unfold trim_ends
  cases h : List.rdropWhile p (l.dropWhile p) with
  | nil => simp
  | cons a t =>
    obtain ⟨r, hr⟩ := List.rdropWhile_prefix p (l.dropWhile p)
    rw [h] at hr
    have hpa : p a = false := dropWhile_cons_head (l := l) hr.symm
    simp [List.dropWhile_cons, hpa]

theorem trim_ends_idem (p : α → Bool) (l : List α) :
    trim_ends p (trim_ends p l) = trim_ends p l := by
  show List.rdropWhile p ((trim_ends p l).dropWhile p) = trim_ends p l
  rw [dropWhile_trim_ends]
  unfold trim_ends
  exact List.rdropWhile_idempotent _ _

theorem map_eq_self_of_mem {f : α → α} {l : List α} (h : ∀ x ∈ l, f x = x) :
    l.map f = l := by
  have := List.map_congr_left (g := id) h
  simpa using this

/-- Idempotence of the character replacement. -/
theorem sanitize_char_idem (c : Char) : sanitize_char (sanitize_char c) = sanitize_char c := by
  unfold sanitize_char
  split
  · decide
  · split
    · decide
    · rfl

/-- C9.  Title sanitization is idempotent: sanitizing an already-sanitized
title yields the same string. -/
theorem c9_sanitize_filename_idempotent (t : Str) :
    sanitize_filename (sanitize_filename t) = sanitize_filename t := by
  unfold sanitize_filename
  have hmap : (rust_trim (t.map sanitize_char)).map sanitize_char
      = rust_trim (t.map sanitize_char) := by
    apply map_eq_self_of_mem
    intro x hx
    have hx2 : x ∈ t.map sanitize_char := mem_of_mem_trim_ends hx
    obtain ⟨y, _, rfl⟩ := List.mem_map.mp hx2
    exact sanitize_char_idem y
  rw [hmap]
  exact trim_ends_idem _ _

/-! ## C3: incremental appends equal bulk serialization -/

theorem foldl_append_turn (msgs : List (Str × Str)) :
    ∀ acc : Str,
      msgs.foldl (fun file m => append_turn_file file m.1 m.2) acc =
        acc ++ (append_chunks msgs).flatten := by
  induction msgs with
  | nil => intro acc; simp [append_chunks]
  | cons m tl ih =>
    intro acc
    rw [List.foldl_cons, ih]
    simp [append_chunks, append_turn_file, List.append_assoc]

/-- C3.  The document bytes produced by writing the header and then doing
the per-turn appends coincide with the bytes produced by the bulk rewrite
(`rewrite_file_with_title`) over the same turns, and equal the header
followed by the concatenated per-turn chunks. -/
theorem c3_incremental_equals_bulk (id : Str) (title : Option Str)
    (msgs : List (Str × Str)) :
    incremental_file id title msgs = rewrite_file_with_title id title msgs ∧
      incremental_file id title msgs =
        write_header_bytes id title ++ (append_chunks msgs).flatten := by
  refine ⟨rfl, ?_⟩
  unfold incremental_file
  exact foldl_append_turn msgs _

/-! ## C2: substring lookup -/

theorem find_conversation_file_none (dir : List Str) (id : Str) :
    ∀ entries : List Str, (∀ e ∈ entries, e ≠ "md".toList) →
      find_conversation_file dir entries id = none := by
  intro entries
  induction entries with
  | nil => intro _; rfl
  | cons name rest ih =>
    intro h
    have hne : name ≠ "md".toList := h name (List.mem_cons_self name rest)
    have hsuf : path_ends_with (dir ++ [name]) ["md".toList] = false := by
      unfold path_ends_with
      by_contra hcon
      have hb : ("md".toList :: []).isSuffixOf (dir ++ [name]) = true := by
        cases hval : (["md".toList]).isSuffixOf (dir ++ [name]) with
        | false => exact absurd hval hcon
        | true => rfl
      have hsuffix : ["md".toList] <:+ dir ++ [name] := List.isSuffixOf_iff_suffix.mp hb
      obtain ⟨t, ht⟩ := hsuffix
      have : List.getLast? (t ++ ["md".toList]) = List.getLast? (dir ++ [name]) := by rw [ht]
      rw [List.getLast?_concat, List.getLast?_concat] at this
      exact hne (Option.some.inj this).symm
    unfold find_conversation_file
    rw [hsuf]
    simp only [Bool.false_and, Bool.false_eq_true, if_false]
    exact ih (fun e he => h e (List.mem_cons_of_mem name he))

/-- C2.  Substring lookup never succeeds: because `Path::ends_with("md")`
compares whole path components, no entry named `<anything>.md` passes the
filter, so whenever the exact filename `<id>.md` is absent (and no entry is
literally named `md`), `load` fails with NotFound even if some filename
contains the id as a substring. -/
theorem c2_load_substring_never_matches (dir : List Str) (entries : List Str) (id : Str)
    (hmd : ∀ e ∈ entries, e ≠ "md".toList)
    (hexact : (id ++ ".md".toList) ∉ entries) :
    load_resolve dir entries id = Except.error () := by
  unfold load_resolve
  rw [if_neg hexact, find_conversation_file_none dir id entries hmd]

/-- Witness for C2 at the specification's own example: the directory holds
`My-Title-abc123.md` and the lookup string is `abc`; the load fails even
though the filename contains the string. -/
theorem c2_load_substring_never_matches_witness :
    ((∀ e ∈ [("My-Title-abc123.md".toList : Str)], e ≠ "md".toList) ∧
      ("abc".toList ++ ".md".toList) ∉ [("My-Title-abc123.md".toList : Str)]) ∧
      load_resolve [".rye".toList] ["My-Title-abc123.md".toList] "abc".toList =
        Except.error () := by
  refine ⟨⟨by decide, by decide⟩, ?_⟩
  exact c2_load_substring_never_matches [".rye".toList] ["My-Title-abc123.md".toList]
    "abc".toList (by decide) (by decide)

/-! ## Lemmas about line splitting -/

theorem split_nl_ne_nil (s : Str) : split_nl s ≠ [] := by
  induction s with
  | nil => simp [split_nl]
  | cons c rest ih =>
    simp only [split_nl]
    split
    · simp
    · cases h : split_nl rest with
      | nil => simp
      | cons l ls => simp [h]

theorem split_nl_eq_singleton {a : Str} (h : '\n' ∉ a) : split_nl a = [a] := by
  induction a with
  | nil => rfl
  | cons c rest ih =>
    have hc : ¬ c = '\n' := by
      intro e
      exact h (e ▸ List.mem_cons_self c rest)
    have hr : '\n' ∉ rest := fun m => h (List.mem_cons_of_mem c m)
    simp [split_nl, hc, ih hr]

theorem split_nl_newline_append (a b : Str) :
    split_nl (a ++ '\n' :: b) = split_nl a ++ split_nl b := by
  induction a with
  | nil => simp [split_nl]
  | cons c rest ih =>
    by_cases hc : c = '\n'
    · subst hc
      simp [split_nl, ih]
    · cases e1 : split_nl rest with
      | nil => exact absurd e1 (split_nl_ne_nil rest)
      | cons l ls =>
        have e2 : split_nl (rest ++ '\n' :: b) = l :: (ls ++ split_nl b) := by
          rw [ih, e1]
          rfl
        simp [split_nl, hc, e1, e2]

theorem mem_of_mem_split_nl (s : Str) : ∀ l ∈ split_nl s, ∀ x ∈ l, x ∈ s := by
  induction s with
  | nil =>
    intro l hl x hx
    simp [split_nl] at hl
    subst hl
    simp at hx
  | cons c rest ih =>
    intro l hl x hx
    by_cases hc : c = '\n'
    · subst hc
      have h0 : split_nl ('\n' :: rest) = [] :: split_nl rest := rfl
      rw [h0] at hl
      rcases List.mem_cons.mp hl with h | h
      · subst h
        exact absurd hx (List.not_mem_nil x)
      · exact List.mem_cons_of_mem _ (ih l h x hx)
    · cases e : split_nl rest with
      | nil => exact absurd e (split_nl_ne_nil rest)
      | cons m ms =>
        have hs : split_nl (c :: rest) = (c :: m) :: ms := by simp [split_nl, hc, e]
        rw [hs] at hl
        rcases List.mem_cons.mp hl with h | h
        · subst h
          rcases List.mem_cons.mp hx with h2 | h2
          · exact h2 ▸ List.mem_cons_self c rest
          · exact List.mem_cons_of_mem _
              (ih m (by rw [e]; exact List.mem_cons_self m ms) x h2)
        · exact List.mem_cons_of_mem _
            (ih l (by rw [e]; exact List.mem_cons_of_mem m h) x hx)

theorem join_lines_split_nl (s : Str) : join_lines (split_nl s) = s := by
  induction s with
  | nil => rfl
  | cons c rest ih =>
    by_cases hc : c = '\n'
    · subst hc
      cases e : split_nl rest with
      | nil => exact absurd e (split_nl_ne_nil rest)
      | cons m ms =>
        have h0 : split_nl ('\n' :: rest) = [] :: split_nl rest := rfl
        rw [h0, e]
        have h1 : join_lines ([] :: m :: ms) = '\n' :: join_lines (m :: ms) := rfl
        rw [h1, ← e, ih]
    · cases e : split_nl rest with
      | nil => exact absurd e (split_nl_ne_nil rest)
      | cons m ms =>
        have hs : split_nl (c :: rest) = (c :: m) :: ms := by
          simp [split_nl, hc, e]
        rw [hs]
        cases ms with
        | nil =>
          have : join_lines [c :: m] = c :: m := rfl
          rw [this]
          have hm : join_lines [m] = m := rfl
          rw [e] at ih
          rw [hm] at ih
          rw [ih]
        | cons m2 ms2 =>
          have : join_lines ((c :: m) :: m2 :: ms2) = (c :: m) ++ '\n' :: join_lines (m2 :: ms2) := rfl
          rw [this]
          rw [e] at ih
          have : join_lines (m :: m2 :: ms2) = m ++ '\n' :: join_lines (m2 :: ms2) := rfl
          rw [this] at ih
          simp only [List.cons_append]
          rw [ih]

/-! ## Lemmas about trimming and blank lines -/

theorem trim_ends_eq_nil_all {p : α → Bool} {l : List α}
    (h : trim_ends p l = []) : ∀ x ∈ l, p x = true := by
  intro x hx
  have hD : ∀ y ∈ l.dropWhile p, p y = true := by
    have := List.rdropWhile_eq_nil_iff.mp h
    simpa using this
  have hsplit : l.takeWhile p ++ l.dropWhile p = l := List.takeWhile_append_dropWhile p l
  rw [← hsplit] at hx
  rcases List.mem_append.mp hx with h1 | h1
  · exact List.mem_takeWhile_imp h1
  · exact hD x h1

theorem line_is_blank_all {l : Str} (h : line_is_blank l = true) :
    ∀ x ∈ l, rust_is_whitespace x = true := by
  unfold line_is_blank at h
  have h2 : rust_trim l = [] := List.isEmpty_iff.mp h
  exact trim_ends_eq_nil_all h2

theorem blank_no_hash_prefix {l : Str} (hb : line_is_blank l = true)
    {pat : Str} (hp : pat.head? = some '#') : pat.isPrefixOf l = false := by
  by_contra hcon
  have hb2 : pat.isPrefixOf l = true := by
    cases hval : pat.isPrefixOf l with
    | false => exact absurd hval hcon
    | true => rfl
  have hpre : pat <+: l := List.isPrefixOf_iff_prefix.mp hb2
  obtain ⟨r, hr⟩ := hpre
  cases pat with
  | nil => simp at hp
  | cons a pt =>
    have ha : a = '#' := by simpa using hp
    subst ha
    have hmem : '#' ∈ l := by
      rw [← hr]
      exact List.mem_append_left r (List.mem_cons_self _ _)
    have := line_is_blank_all hb '#' hmem
    simp [rust_is_whitespace] at this

theorem dropWhile_append_all {p : α → Bool} {a : List α}
    (h : ∀ x ∈ a, p x = true) (b : List α) :
    List.dropWhile p (a ++ b) = List.dropWhile p b := by
  induction a with
  | nil => rfl
  | cons x xs ih =>
    have hx : p x = true := h x (List.mem_cons_self x xs)
    simp only [List.cons_append, List.dropWhile_cons, hx, if_pos]
    exact ih (fun y hy => h y (List.mem_cons_of_mem x hy))

theorem rdropWhile_append_all {p : α → Bool} {b : List α}
    (h : ∀ x ∈ b, p x = true) (a : List α) :
    List.rdropWhile p (a ++ b) = List.rdropWhile p a := by
  induction b using List.reverseRecOn with
  | nil => rw [List.append_nil]
  | append_singleton bs x ih =>
    have hx : p x = true := h x (List.mem_append_right bs (List.mem_cons_self x []))
    rw [← List.append_assoc, List.rdropWhile_concat_pos p (a ++ bs) x hx]
    exact ih (fun y hy => h y (List.mem_append_left [x] hy))

theorem rdropWhile_eq_self_of_last {p : α → Bool} {l : List α}
    (h : ∀ x ∈ l.getLast?, p x = false) : List.rdropWhile p l = l := by
  cases hl : l with
  | nil => simp [List.rdropWhile_nil]
  | cons a t =>
    rw [← hl]
    apply List.rdropWhile_eq_self_iff.mpr
    intro hne
    have hsome : l.getLast? = some (l.getLast hne) := List.getLast?_eq_getLast l hne
    have := h (l.getLast hne) (by rw [hsome]; rfl)
    simp [this]

theorem trim_ends_pad {p : α → Bool} {bl X br : List α}
    (hbl : ∀ x ∈ bl, p x = true) (hbr : ∀ x ∈ br, p x = true)
    (hX : X ≠ []) (hh : ∀ x ∈ X.head?, p x = false)
    (hlast : ∀ x ∈ X.getLast?, p x = false) :
    trim_ends p (bl ++ X ++ br) = X := by
  unfold trim_ends
  rw [List.append_assoc, dropWhile_append_all hbl]
  cases hXc : X with
  | nil => exact absurd hXc hX
  | cons x xs =>
    have hx : p x = false := by
      apply hh
      rw [hXc]
      rfl
    have hdrop : List.dropWhile p (X ++ br) = X ++ br := by
      rw [hXc, List.cons_append, List.dropWhile_cons, hx]
      simp
    rw [← hXc, hdrop, rdropWhile_append_all hbr, rdropWhile_eq_self_of_last hlast]

theorem trim_ends_eq_self {p : α → Bool} {X : List α}
    (hh : ∀ x ∈ X.head?, p x = false) (hlast : ∀ x ∈ X.getLast?, p x = false) :
    trim_ends p X = X := by
  cases hXc : X with
  | nil => rfl
  | cons x xs =>
    rw [← hXc]
    have h2 : trim_ends p ([] ++ X ++ []) = X :=
      trim_ends_pad (by simp) (by simp) (by rw [hXc]; simp) hh hlast
    simpa using h2

/-! ## Lemmas about the parser loops -/

theorem collect_block_append {xs : List Str}
    (h : ∀ l ∈ xs, ("## ".toList).isPrefixOf l = false) (ys : List Str) :
    collect_block (xs ++ ys) = (xs ++ (collect_block ys).1, (collect_block ys).2) := by
  induction xs with
  | nil => simp [collect_block]
  | cons l ls ih =>
    have hl : ("## ".toList).isPrefixOf l = false := h l (List.mem_cons_self l ls)
    have ih2 := ih (fun m hm => h m (List.mem_cons_of_mem l hm))
    have hl2 : ¬ ("## ".toList <+: l) := by
      intro hcon
      rw [List.isPrefixOf_iff_prefix.mpr hcon] at hl
      exact Bool.true_eq_false.mp hl
    simp [collect_block, hl, ih2]
    simpa using hl2

theorem collect_block_stop {l : Str} (h : ("## ".toList).isPrefixOf l = true)
    (rest : List Str) : collect_block (l :: rest) = ([], l :: rest) := by
  simp [collect_block, h]
  exact List.isPrefixOf_iff_prefix.mp h

theorem parse_messages_skip (ls : List Str) :
    ∀ pre : List Str, (∀ l ∈ pre, line_is_blank l = true) →
      parse_messages (pre ++ ls) = parse_messages ls := by
  intro pre
  induction pre with
  | nil => intro _; rfl
  | cons l pt ih =>
    intro h
    have hb : line_is_blank l = true := h l (List.mem_cons_self l pt)
    have h1 : ("## You".toList).isPrefixOf l = false :=
      blank_no_hash_prefix hb (by decide)
    have h2 : ("## Assistant".toList).isPrefixOf l = false :=
      blank_no_hash_prefix hb (by decide)
    rw [List.cons_append]
    rw [parse_messages_cons]
    simp only [h1, h2, Bool.false_eq_true, if_false]
    exact ih (fun m hm => h m (List.mem_cons_of_mem l hm))

theorem option_all_mem {o : Option α} {f : α → Bool} (h : o.all f = true) :
    ∀ x ∈ o, f x = true := by
  cases o with
  | none => intro x hx; simp at hx
  | some a =>
    intro x hx
    have hxa : a = x := by simpa using hx
    subst hxa
    simpa [Option.all] using h

theorem role_header_hash_prefix (r : Str) :
    ("## ".toList).isPrefixOf (role_header r) = true := by
  unfold role_header
  split
  · decide
  · decide

theorem content_ok_parts {c : Str} (h : content_ok c = true) :
    (∀ l ∈ split_nl c, ("## ".toList).isPrefixOf l = false) ∧
      (∀ l ∈ (split_nl c).head?, line_is_blank l = false) ∧
      (∀ l ∈ (split_nl c).getLast?, line_is_blank l = false) := by
  unfold content_ok at h
  have h1 := (Bool.and_eq_true _ _).mp h
  have h2 := (Bool.and_eq_true _ _).mp h1.1
  refine ⟨?_, ?_, ?_⟩
  · intro l hl
    have := (List.all_eq_true.mp h2.1) l hl
    simpa using this
  · intro l hl
    have := option_all_mem h2.2 l hl
    simpa using this
  · intro l hl
    have := option_all_mem h1.2 l hl
    simpa using this

theorem parse_block_core (c : Str) (T : List Str) (hok : content_ok c = true)
    (hT : T = [] ∨ ∃ y t2, T = [] :: y :: t2 ∧ ("## ".toList).isPrefixOf y = true) :
    strip_blank_lines (collect_block ([] :: split_nl c ++ [] :: T)).1 = split_nl c ∧
      (collect_block ([] :: split_nl c ++ [] :: T)).2 = T.tail := by
  obtain ⟨hno, hhead, hlast⟩ := content_ok_parts hok
  have hblank_nil : line_is_blank ([] : Str) = true := by decide
  have hnopref_nil : ("## ".toList).isPrefixOf ([] : Str) = false := by decide
  rcases hT with hT | ⟨y, t2, hT, hy⟩
  · subst hT
    have hxs : ∀ l ∈ ([] :: split_nl c ++ [[]] : List Str),
        ("## ".toList).isPrefixOf l = false := by
      intro l hl
      rcases List.mem_cons.mp hl with h | h
      · subst h; exact hnopref_nil
      · rcases List.mem_append.mp h with h | h
        · exact hno l h
        · have : l = [] := by simpa using h
          subst this; exact hnopref_nil
    have hcb : collect_block (([] :: split_nl c ++ [[]] : List Str) ++ []) =
        (([] :: split_nl c ++ [[]] : List Str) ++ [], []) := by
      rw [collect_block_append hxs []]
      rfl
    rw [List.append_nil] at hcb
    constructor
    · rw [show ([] :: split_nl c ++ [] :: ([] : List Str)) = [] :: split_nl c ++ [[]] from rfl]
      rw [hcb]
      show strip_blank_lines ([[]] ++ split_nl c ++ [[]]) = split_nl c
      unfold strip_blank_lines
      apply trim_ends_pad
      · intro x hx
        have : x = [] := by simpa using hx
        subst this; exact hblank_nil
      · intro x hx
        have : x = [] := by simpa using hx
        subst this; exact hblank_nil
      · exact split_nl_ne_nil c
      · exact hhead
      · exact hlast
    · rw [show ([] :: split_nl c ++ [] :: ([] : List Str)) = [] :: split_nl c ++ [[]] from rfl]
      rw [hcb]
      rfl
  · subst hT
    have hshape : ([] :: split_nl c ++ [] :: ([] :: y :: t2) : List Str) =
        (([] :: split_nl c ++ [[], []]) ++ (y :: t2)) := by simp
    have hxs : ∀ l ∈ ([] :: split_nl c ++ [[], []] : List Str),
        ("## ".toList).isPrefixOf l = false := by
      intro l hl
      rcases List.mem_cons.mp hl with h | h
      · subst h; exact hnopref_nil
      · rcases List.mem_append.mp h with h | h
        · exact hno l h
        · rcases List.mem_cons.mp h with h | h
          · subst h; exact hnopref_nil
          · have : l = [] := by simpa using h
            subst this; exact hnopref_nil
    have hcb : collect_block (([] :: split_nl c ++ [[], []]) ++ (y :: t2)) =
        (([] :: split_nl c ++ [[], []]) ++ [], y :: t2) := by
      rw [collect_block_append hxs (y :: t2), collect_block_stop hy t2]
    rw [List.append_nil] at hcb
    rw [hshape, hcb]
    constructor
    · show strip_blank_lines ([[]] ++ split_nl c ++ [[], []]) = split_nl c
      unfold strip_blank_lines
      apply trim_ends_pad
      · intro x hx
        have : x = [] := by simpa using hx
        subst this; exact hblank_nil
      · intro x hx
        have : x = [] := by
          rcases List.mem_cons.mp hx with h | h
          · exact h
          · simpa using h
        subst this; exact hblank_nil
      · exact split_nl_ne_nil c
      · exact hhead
      · exact hlast
    · rfl

theorem body_lines_shape (msgs : List (Str × Str)) :
    body_lines msgs = [] ∨
      ∃ y t2, body_lines msgs = [] :: y :: t2 ∧ ("## ".toList).isPrefixOf y = true := by
  cases msgs with
  | nil => exact Or.inl rfl
  | cons m tl =>
    refine Or.inr ⟨role_header m.1, [] :: split_nl m.2 ++ [] :: body_lines tl, ?_, ?_⟩
    · rfl
    · exact role_header_hash_prefix m.1

theorem parse_messages_body (msgs : List (Str × Str)) :
    (∀ m ∈ msgs, content_ok m.2 = true) →
      ∀ pre : List Str, (∀ l ∈ pre, line_is_blank l = true) →
        parse_messages (pre ++ body_lines msgs) =
          msgs.map (fun m => (parsed_role m.1, m.2)) := by
  induction msgs with
  | nil =>
    intro _ pre hpre
    rw [show body_lines [] = [] from rfl, List.append_nil]
    have := parse_messages_skip [] pre hpre
    rw [List.append_nil] at this
    rw [this]
    rfl
  | cons m tl ih =>
    intro hok pre hpre
    obtain ⟨r, c⟩ := m
    have hc : content_ok c = true := (hok (r, c) (List.mem_cons_self _ _))
    have hok2 : ∀ m2 ∈ tl, content_ok m2.2 = true :=
      fun m2 hm2 => hok m2 (List.mem_cons_of_mem _ hm2)
    have hstep : pre ++ body_lines ((r, c) :: tl) =
        (pre ++ [[]]) ++
          (role_header r :: ([] :: split_nl c ++ [] :: body_lines tl)) := by
      show pre ++ ([] :: role_header r :: [] :: split_nl c ++ [] :: body_lines tl) = _
      simp
    have hpre2 : ∀ l ∈ pre ++ [[]], line_is_blank l = true := by
      intro l hl
      rcases List.mem_append.mp hl with h | h
      · exact hpre l h
      · have : l = [] := by simpa using h
        subst this; decide
    rw [hstep, parse_messages_skip _ (pre ++ [[]]) hpre2]
    obtain ⟨hstrip, hrest⟩ := parse_block_core c (body_lines tl) hc (body_lines_shape tl)
    have hrem : parse_messages (body_lines tl).tail =
        tl.map (fun m => (parsed_role m.1, m.2)) := by
      rcases body_lines_shape tl with hsh | ⟨y, t2, hsh, _⟩
      · rw [hsh]
        rw [show (([] : List Str)).tail = [] from rfl]
        have := ih hok2 [] (by intro l hl; simp at hl)
        rw [hsh] at this
        simpa using this
      · rw [hsh]
        have hskip := parse_messages_skip (y :: t2) [[]] (by
          intro l hl
          have : l = [] := by simpa using hl
          subst this; decide)
        have := ih hok2 [] (by intro l hl; simp at hl)
        rw [hsh] at this
        rw [show ([[]] ++ (y :: t2) : List Str) = [] :: y :: t2 from rfl] at hskip
        rw [show (([] : Str) :: y :: t2).tail = y :: t2 from rfl]
        rw [← hskip]
        simpa using this
    have hne : strip_blank_lines (collect_block
        ([] :: split_nl c ++ [] :: body_lines tl)).1 ≠ [] := by
      rw [hstrip]; exact split_nl_ne_nil c
    by_cases hr : r = "user".toList
    · subst hr
      have hhdr : role_header "user".toList = "## You".toList := by
        unfold role_header; simp
      rw [hhdr, parse_messages_cons]
      rw [if_pos (by decide)]
      simp only [hstrip, hrest]
      rw [if_neg (split_nl_ne_nil c)]
      rw [join_lines_split_nl, hrem]
      simp [parsed_role]
    · have hhdr : role_header r = "## Assistant".toList := by
        unfold role_header; rw [if_neg hr]
      rw [hhdr, parse_messages_cons]
      rw [if_neg (by decide), if_pos (by decide)]
      simp only [hstrip, hrest]
      rw [if_neg (split_nl_ne_nil c)]
      rw [join_lines_split_nl, hrem]
      simp [parsed_role]
      exact (if_neg hr).symm

/-! ## From serialized documents to line lists -/

theorem role_header_no_newline (r : Str) : '\n' ∉ role_header r := by
  unfold role_header
  split
  · decide
  · decide

theorem role_header_no_cr (r : Str) : '\r' ∉ role_header r := by
  unfold role_header
  split
  · decide
  · decide

theorem split_nl_cons_newline (s : Str) : split_nl ('\n' :: s) = [] :: split_nl s := rfl

theorem split_append_chunks (msgs : List (Str × Str)) :
    split_nl ((append_chunks msgs).flatten) = body_lines msgs ++ [[]] := by
  induction msgs with
  | nil => rfl
  | cons m tl ih =>
    obtain ⟨r, c⟩ := m
    have h1 : (append_chunks ((r, c) :: tl)).flatten =
        '\n' :: (role_header r ++ '\n' ::
          ('\n' :: (c ++ '\n' :: ('\n' :: (append_chunks tl).flatten)))) := by
      simp [append_chunks, add_message_bytes]
    rw [h1, split_nl_cons_newline, split_nl_newline_append,
      split_nl_eq_singleton (role_header_no_newline r), split_nl_cons_newline,
      split_nl_newline_append, split_nl_cons_newline, ih]
    simp [body_lines]

theorem strip_cr_eq_self {l : Str} (h : '\r' ∉ l) : strip_cr l = l := by
  unfold strip_cr
  rw [if_neg]
  intro hcon
  exact h (List.mem_of_mem_getLast? (by rw [hcon]; rfl))

theorem body_lines_no_cr {msgs : List (Str × Str)} (h : ∀ m ∈ msgs, '\r' ∉ m.2) :
    ∀ l ∈ body_lines msgs, '\r' ∉ l := by
  induction msgs with
  | nil => intro l hl; simp [body_lines] at hl
  | cons m tl ih =>
    intro l hl
    have hshape : body_lines (m :: tl) =
        [] :: role_header m.1 :: [] :: split_nl m.2 ++ [] :: body_lines tl := rfl
    rw [hshape] at hl
    rcases List.mem_cons.mp hl with h1 | h1
    · subst h1; simp
    · rcases List.mem_cons.mp h1 with h2 | h2
      · subst h2; exact role_header_no_cr m.1
      · rcases List.mem_cons.mp h2 with h3 | h3
        · subst h3; simp
        · rcases List.mem_append.mp h3 with h4 | h4
          · intro hcr
            exact (h m (List.mem_cons_self m tl))
              (mem_of_mem_split_nl m.2 l h4 '\r' hcr)
          · rcases List.mem_cons.mp h4 with h5 | h5
            · subst h5; simp
            · exact ih (fun m2 hm2 => h m2 (List.mem_cons_of_mem m hm2)) l h5

theorem rust_lines_serialize (id : Str) (msgs : List (Str × Str))
    (hid : id_ok id) (hcr : ∀ m ∈ msgs, '\r' ∉ m.2) :
    rust_lines (serialize_via_appends id msgs) =
      ("# Conversation ".toList ++ id) :: [] :: body_lines msgs := by
  obtain ⟨hne, hnl, hcrid, hws⟩ := hid
  have hser : serialize_via_appends id msgs =
      ("# Conversation ".toList ++ id) ++ '\n' :: ('\n' :: (append_chunks msgs).flatten) := by
    unfold serialize_via_appends incremental_file
    rw [foldl_append_turn]
    simp [write_header_bytes]
  have hnl2 : '\n' ∉ "# Conversation ".toList ++ id := by
    intro hcon
    rcases List.mem_append.mp hcon with h | h
    · simp at h
    · exact hnl h
  have hsplit : split_nl (serialize_via_appends id msgs) =
      (("# Conversation ".toList ++ id) :: [] :: body_lines msgs) ++ [[]] := by
    rw [hser, split_nl_newline_append, split_nl_eq_singleton hnl2,
      split_nl_cons_newline, split_append_chunks]
    simp
  unfold rust_lines
  rw [hsplit]
  simp only [List.getLast?_concat, List.dropLast_concat, if_pos]
  apply map_eq_self_of_mem
  intro l hl
  apply strip_cr_eq_self
  rcases List.mem_cons.mp hl with h1 | h1
  · subst h1
    intro hcon
    rcases List.mem_append.mp hcon with h | h
    · simp at h
    · exact hcrid h
  · rcases List.mem_cons.mp h1 with h2 | h2
    · subst h2; simp
    · exact body_lines_no_cr hcr l h2

theorem parse_title_serialize (id : Str) (hid : id_ok id) (rest : List Str) :
    parse_title (("# Conversation ".toList ++ id) :: rest) = (none, rest) := by
  obtain ⟨hne, hnl, hcrid, hws⟩ := hid
  have hpre : ("# ".toList).isPrefixOf ("# Conversation ".toList ++ id) = true :=
    List.isPrefixOf_iff_prefix.mpr ⟨"Conversation ".toList ++ id, rfl⟩
  have htsm : trim_start_matches_hash ("# Conversation ".toList ++ id) =
      "Conversation ".toList ++ id := rfl
  have htrim : rust_trim ("Conversation ".toList ++ id) = "Conversation ".toList ++ id := by
    unfold rust_trim
    apply trim_ends_eq_self
    · intro x hx
      have hxc : 'C' = x := by simpa using hx
      subst hxc
      decide
    · intro x hx
      rw [List.getLast?_append_of_ne_nil _ hne] at hx
      have := option_all_mem hws x hx
      simpa using this
  have hconv : ("Conversation ".toList).isPrefixOf ("Conversation ".toList ++ id) = true :=
    List.isPrefixOf_iff_prefix.mpr ⟨id, rfl⟩
  simp only [parse_title, hpre, htsm, htrim, hconv, if_pos]

/-! ## C1, C10: round-trip through incremental appends -/

theorem map_parsed_role_eq_self {msgs : List (Str × Str)}
    (h : ∀ m ∈ msgs, m.1 = "user".toList ∨ m.1 = "assistant".toList) :
    msgs.map (fun m => (parsed_role m.1, m.2)) = msgs := by
  induction msgs with
  | nil => rfl
  | cons m tl ih =>
    rw [List.map_cons, ih (fun m2 hm2 => h m2 (List.mem_cons_of_mem m hm2))]
    rcases h m (List.mem_cons_self m tl) with hr | hr
    · rw [show (parsed_role m.1, m.2) = m from by
        rw [parsed_role, if_pos hr, ← hr]]
    · rw [show (parsed_role m.1, m.2) = m from by
        rw [parsed_role, if_neg (by rw [hr]; decide), ← hr]]

/-- C1 (amended).  A conversation built by `create` followed by
`add_message` appends round-trips through `parse_markdown_conversation` —
same ordered turns, title unset — provided every role is `"user"` or
`"assistant"` and every content has no carriage returns, no line starting
with `"## "`, and non-blank first and last lines. -/
theorem c1_append_roundtrip (id : Str) (msgs : List (Str × Str))
    (hid : id_ok id)
    (hm : ∀ m ∈ msgs, (m.1 = "user".toList ∨ m.1 = "assistant".toList) ∧
      '\r' ∉ m.2 ∧ content_ok m.2 = true) :
    parse_markdown_conversation (serialize_via_appends id msgs) = (msgs, none) := by
  have hlines := rust_lines_serialize id msgs hid (fun m hm2 => (hm m hm2).2.1)
  have htitle := parse_title_serialize id hid ([] :: body_lines msgs)
  have hbody := parse_messages_body msgs (fun m hm2 => (hm m hm2).2.2) [[]]
    (by
      intro l hl
      have hll : l = [] := by simpa using hl
      subst hll
      decide)
  unfold parse_markdown_conversation
  simp only [hlines, htitle]
  rw [show (([] : Str) :: body_lines msgs) = [[]] ++ body_lines msgs from rfl, hbody,
    map_parsed_role_eq_self (fun m hm2 => (hm m hm2).1)]

/-- Witness for C1 on the specification's running example. -/
theorem c1_append_roundtrip_witness :
    (id_ok "abc123".toList ∧
      (∀ m ∈ [("user".toList, "Hello".toList), ("assistant".toList, "Hi there".toList)],
        (m.1 = "user".toList ∨ m.1 = "assistant".toList) ∧
          '\r' ∉ m.2 ∧ content_ok m.2 = true)) ∧
      parse_markdown_conversation (serialize_via_appends "abc123".toList
          [("user".toList, "Hello".toList), ("assistant".toList, "Hi there".toList)]) =
        ([("user".toList, "Hello".toList), ("assistant".toList, "Hi there".toList)], none) :=
  ⟨⟨by decide, by decide⟩, c1_append_roundtrip _ _ (by decide) (by decide)⟩

/-- Counterexample to C1 as stated: the content `" "` is non-empty, but the
turn is dropped on reload because its only line is blank, so parsing does
not reproduce the in-memory turn list. -/
theorem c1_append_roundtrip_counterexample :
    ([' '] : Str) ≠ [] ∧
      parse_markdown_conversation (serialize_via_appends "abc123".toList
          [("user".toList, [' '])]) ≠ ([("user".toList, [' '])], none) := by
  constructor
  · decide
  · decide

/-- C10.  Any role other than exactly `"user"` is serialized under the
`"## Assistant"` heading, and reloading such a document yields the role
`"assistant"`: role strings other than `"user"`/`"assistant"` are not
preserved by the round trip. -/
theorem c10_role_not_preserved (id role content : Str) (hid : id_ok id)
    (hrole : role ≠ "user".toList) (hcr : '\r' ∉ content)
    (hc : content_ok content = true) :
    role_header role = "## Assistant".toList ∧
      parse_markdown_conversation (serialize_via_appends id [(role, content)]) =
        ([("assistant".toList, content)], none) := by
  constructor
  · unfold role_header
    rw [if_neg hrole]
  · have hmm : ∀ m ∈ [(role, content)], '\r' ∉ m.2 := by
      intro m hm2
      have hme : m = (role, content) := by simpa using hm2
      subst hme
      exact hcr
    have hlines := rust_lines_serialize id [(role, content)] hid hmm
    have htitle := parse_title_serialize id hid ([] :: body_lines [(role, content)])
    have hbody := parse_messages_body [(role, content)]
      (by
        intro m hm2
        have hme : m = (role, content) := by simpa using hm2
        subst hme
        exact hc) [[]]
      (by
        intro l hl
        have hll : l = [] := by simpa using hl
        subst hll
        decide)
    unfold parse_markdown_conversation
    simp only [hlines, htitle]
    rw [show (([] : Str) :: body_lines [(role, content)]) =
      [[]] ++ body_lines [(role, content)] from rfl, hbody]
    rw [List.map_cons]
    rw [show parsed_role role = "assistant".toList from by rw [parsed_role, if_neg hrole]]
    rfl

/-- Witness for C10 with the role `"system"`. -/
theorem c10_role_not_preserved_witness :
    (id_ok "abc123".toList ∧ "system".toList ≠ "user".toList ∧
      '\r' ∉ "hi".toList ∧ content_ok "hi".toList = true) ∧
      (role_header "system".toList = "## Assistant".toList ∧
        parse_markdown_conversation (serialize_via_appends "abc123".toList
            [("system".toList, "hi".toList)]) =
          ([("assistant".toList, "hi".toList)], none)) :=
  ⟨⟨by decide, by decide, by decide, by decide⟩,
    c10_role_not_preserved "abc123".toList "system".toList "hi".toList
      (by decide) (by decide) (by decide) (by decide)⟩

/-! ## C4: scope of a role heading -/

/-- C4 (amended).  After a role-heading line the parser collects every
subsequent line up to (not including) the next line that starts with the
level-2 heading marker `"## "` — not only the two fixed role headings — or
the end of input; lines inside that scope that do not start with `"## "`
are preserved verbatim in the turn content (modulo the blank-edge
stripping), and the turn is dropped when the stripped block is empty. -/
theorem c4_heading_scope (c rest : List Str)
    (h1 : ∀ l ∈ c, ("## ".toList).isPrefixOf l = false)
    (h2 : ∀ l ∈ rest.head?, ("## ".toList).isPrefixOf l = true) :
    (parse_messages ("## You".toList :: (c ++ rest)) =
      if strip_blank_lines c = [] then parse_messages rest
      else ("user".toList, join_lines (strip_blank_lines c)) :: parse_messages rest) ∧
    (parse_messages ("## Assistant".toList :: (c ++ rest)) =
      if strip_blank_lines c = [] then parse_messages rest
      else ("assistant".toList, join_lines (strip_blank_lines c)) :: parse_messages rest) := by
  have hcb : collect_block (c ++ rest) = (c, rest) := by
    cases hr : rest with
    | nil =>
      rw [collect_block_append h1 []]
      simp [collect_block]
    | cons y t =>
      have hy : ("## ".toList).isPrefixOf y = true := by
        apply h2
        rw [hr]
        rfl
      rw [collect_block_append h1 (y :: t), collect_block_stop hy t]
      simp
  constructor
  · rw [parse_messages_cons, if_pos (by decide)]
    simp only [hcb]
  · rw [parse_messages_cons, if_neg (by decide), if_pos (by decide)]
    simp only [hcb]

/-- Witness for C4: a two-line block terminated by end of input. -/
theorem c4_heading_scope_witness :
    ((∀ l ∈ [("hello".toList : Str), "x".toList], ("## ".toList).isPrefixOf l = false) ∧
      (∀ l ∈ (([] : List Str)).head?, ("## ".toList).isPrefixOf l = true)) ∧
      parse_messages ("## You".toList :: (["hello".toList, "x".toList] ++ [])) =
        [("user".toList, "hello\nx".toList)] := by
  have h := (c4_heading_scope ["hello".toList, "x".toList] [] (by decide) (by decide)).1
  exact ⟨⟨by decide, by decide⟩, h.trans (by decide)⟩

/-- Counterexample to C4 as stated: a level-2 heading other than the two
role headings (`"## Other"`) terminates the block instead of being
preserved as content, so the turn contains only `"hello"` and the claimed
value (content running to end of input) differs. -/
theorem c4_heading_scope_counterexample :
    parse_markdown_conversation "## You\n\nhello\n\n## Other\n\nworld\n".toList =
      ([("user".toList, "hello".toList)], none) ∧
      ([("user".toList, "hello".toList)], (none : Option Str)) ≠
        ([("user".toList, "hello\n\n## Other\n\nworld".toList)], none) := by
  constructor
  · decide
  · decide

/-! ## C8: title extraction and the reserved placeholder -/

theorem rust_lines_append_line {a : Str} (h2 : '\n' ∉ a)
    (h3 : a.getLast? ≠ some '\r') (b : Str) :
    rust_lines (a ++ '\n' :: b) = a :: rust_lines b := by
  unfold rust_lines
  rw [split_nl_newline_append, split_nl_eq_singleton h2]
  cases hsb : split_nl b with
  | nil => exact absurd hsb (split_nl_ne_nil b)
  | cons m ms =>
    have hstrip : strip_cr a = a := by
      unfold strip_cr
      rw [if_neg h3]
    simp only [List.singleton_append, List.getLast?_cons_cons, List.map_cons, hstrip]
    by_cases hlast : (m :: ms).getLast? = some ([] : Str)
    · rw [if_pos hlast, if_pos hlast]
      rw [List.dropLast_cons₂, List.map_cons, hstrip]
    · rw [if_neg hlast, if_neg hlast]
      rw [List.map_cons, hstrip]

/-- C8.  For a document whose first line is a level-1 heading, parsing
adopts the heading remainder (repeated `"# "` markers stripped, then
trimmed) as the title exactly when that remainder does not start with the
reserved placeholder prefix `"Conversation "`; placeholder-form headings
leave the title unset. -/
theorem c8_title_placeholder (first rest : Str)
    (h1 : ("# ".toList).isPrefixOf first = true)
    (h2 : '\n' ∉ first) (h3 : first.getLast? ≠ some '\r') :
    (parse_markdown_conversation (first ++ '\n' :: rest)).2 =
      (if ("Conversation ".toList).isPrefixOf
          (rust_trim (trim_start_matches_hash first)) then none
        else some (rust_trim (trim_start_matches_hash first))) := by
  have hlines := rust_lines_append_line h2 h3 rest
  unfold parse_markdown_conversation
  simp only [hlines, parse_title, h1, if_pos]

/-- Witness for C8: an ordinary title is adopted, and the placeholder form
with an embedded identifier is rejected. -/
theorem c8_title_placeholder_witness :
    ((("# ".toList).isPrefixOf "# My Title".toList = true ∧
        '\n' ∉ "# My Title".toList ∧
        "# My Title".toList.getLast? ≠ some '\r') ∧
      (parse_markdown_conversation ("# My Title".toList ++ '\n' :: "rest".toList)).2 =
        some "My Title".toList) ∧
      ((("# ".toList).isPrefixOf "# Conversation abc123".toList = true ∧
          '\n' ∉ "# Conversation abc123".toList ∧
          "# Conversation abc123".toList.getLast? ≠ some '\r') ∧
        (parse_markdown_conversation
            ("# Conversation abc123".toList ++ '\n' :: "rest".toList)).2 = none) := by
  constructor
  · refine ⟨⟨by decide, by decide, by decide⟩, ?_⟩
    exact (c8_title_placeholder "# My Title".toList "rest".toList
      (by decide) (by decide) (by decide)).trans (by decide)
  · refine ⟨⟨by decide, by decide, by decide⟩, ?_⟩
    exact (c8_title_placeholder "# Conversation abc123".toList "rest".toList
      (by decide) (by decide) (by decide)).trans (by decide)

/-! ## C5, C6, C7: streaming renderer delivery -/

theorem nonws_append (a b : Str) : nonws (a ++ b) = nonws a ++ nonws b := by
  simp [nonws]

theorem nonws_nil_of_trim_nil {l : Str} (h : rust_trim l = []) : nonws l = [] := by
  apply List.filter_eq_nil_iff.mpr
  intro a ha
  have := trim_ends_eq_nil_all h a ha
  simp [this]

/-- The non-whitespace content currently owned by the renderer: delivered
blocks, pending buffer, and partial line, in order. -/
def render_measure (s : RenderState) : Str :=
  nonws (s.outputs.flatten) ++ nonws s.buffer ++ nonws s.current_line

theorem flush_buffer_ok (s : RenderState) :
    ∃ s2, flush_buffer (fun _ => true) s = Except.ok s2 ∧
      s2.outputs.flatten ++ s2.buffer = s.outputs.flatten ++ s.buffer ∧
      s2.buffer = [] ∧ s2.current_line = s.current_line ∧
      s2.in_code_block = s.in_code_block ∧ s2.full_response = s.full_response := by
  unfold flush_buffer
  by_cases hb : s.buffer = []
  · rw [if_neg (fun hcon => hcon hb)]
    exact ⟨s, rfl, rfl, hb, rfl, rfl, rfl⟩
  · rw [if_pos hb]
    refine ⟨_, rfl, ?_, rfl, rfl, rfl, rfl⟩
    simp

theorem render_and_close_fence_ok (s : RenderState) :
    render_and_close_fence (fun _ => true) s =
      Except.ok
        { s with
          outputs := s.outputs ++ [s.buffer], calls := s.calls + 1,
          buffer := [], in_code_block := false } := rfl

theorem process_line_end_ok (s : RenderState) :
    ∃ s2, process_line_end (fun _ => true) s = Except.ok s2 ∧
      nonws s2.outputs.flatten ++ nonws s2.buffer =
        nonws s.outputs.flatten ++ nonws s.buffer ++ nonws s.current_line ∧
      s2.current_line = [] ∧ s2.full_response = s.full_response := by
  simp only [process_line_end]
  by_cases b1 : ("```".toList).isPrefixOf (rust_trim s.current_line) = true
  · rw [if_pos b1]
    by_cases b2 : s.in_code_block = true
    · rw [if_pos b2, render_and_close_fence_ok]
      refine ⟨_, rfl, ?_, rfl, rfl⟩
      simp [nonws_append, nonws]
    · rw [if_neg b2]
      obtain ⟨s3, h1, h2, h3, h4, h5, h6⟩ := flush_buffer_ok s
      rw [h1]
      refine ⟨_, rfl, ?_, rfl, h6⟩
      have hm := congrArg nonws h2
      rw [nonws_append, nonws_append, h3] at hm
      simp only [show nonws ([] : Str) = [] from rfl, List.append_nil] at hm
      simp [nonws_append, hm, h3, h4, show nonws ([] : Str) = [] from rfl]
  · rw [if_neg b1]
    by_cases b2 : s.in_code_block = true
    · rw [if_pos b2]
      refine ⟨_, rfl, ?_, rfl, rfl⟩
      simp [nonws_append]
    · rw [if_neg b2]
      by_cases b3 : rust_trim s.current_line = []
      · rw [if_pos b3]
        obtain ⟨s3, h1, h2, h3, h4, h5, h6⟩ := flush_buffer_ok s
        rw [h1]
        refine ⟨_, rfl, ?_, rfl, h6⟩
        have hline : nonws s.current_line = [] := nonws_nil_of_trim_nil b3
        have hm := congrArg nonws h2
        rw [nonws_append, nonws_append, h3] at hm
        simp only [show nonws ([] : Str) = [] from rfl, List.append_nil] at hm
        simp [nonws_append, hm, h3, hline, show nonws (['\n'] : Str) = [] from by decide,
          show nonws ([] : Str) = [] from rfl]
      · rw [if_neg b3]
        by_cases b4 : (rust_trim s.current_line).head? = some '#'
        · rw [if_pos b4]
          obtain ⟨s3, h1, h2, h3, h4, h5, h6⟩ := flush_buffer_ok s
          rw [h1]
          have hrc : render_markdown_call (fun _ => true) s3 s3.current_line =
              Except.ok
                { s3 with
                  outputs := s3.outputs ++ [s3.current_line],
                  calls := s3.calls + 1 } := rfl
          rw [show Except.bind (Except.ok s3)
              (fun s2 => render_markdown_call (fun _ => true) s2 s2.current_line) =
              render_markdown_call (fun _ => true) s3 s3.current_line from rfl, hrc]
          refine ⟨_, rfl, ?_, rfl, h6⟩
          have hm := congrArg nonws h2
          rw [nonws_append, nonws_append, h3] at hm
          simp only [show nonws ([] : Str) = [] from rfl, List.append_nil] at hm
          simp [nonws_append, hm, h3, h4, show nonws ([] : Str) = [] from rfl]
        · rw [if_neg b4]
          by_cases b5 : is_list_item (rust_trim s.current_line) = true
          · rw [if_pos b5]
            refine ⟨_, rfl, ?_, rfl, rfl⟩
            simp [nonws_append]
          · rw [if_neg b5]
            refine ⟨_, rfl, ?_, rfl, rfl⟩
            simp [nonws_append]

theorem process_char_ok (s : RenderState) (ch : Char) :
    ∃ s2, process_char (fun _ => true) s ch = Except.ok s2 ∧
      render_measure s2 = render_measure s ++ nonws [ch] ∧
      s2.full_response = s.full_response := by
  unfold process_char
  by_cases hch : ch = '\n'
  · subst hch
    rw [if_pos rfl]
    obtain ⟨s2, h1, h2, h3, h4⟩ :=
      process_line_end_ok { s with current_line := s.current_line ++ ['\n'] }
    refine ⟨s2, h1, ?_, h4⟩
    unfold render_measure
    rw [h3, h2]
    simp [nonws_append, show nonws (['\n'] : Str) = [] from by decide,
      show nonws ([] : Str) = [] from rfl]
  · rw [if_neg hch]
    refine ⟨_, rfl, ?_, rfl⟩
    simp [render_measure, nonws_append]

theorem foldlM_process_char_ok (cs : Str) :
    ∀ s : RenderState,
      ∃ s2, List.foldlM (process_char (fun _ => true)) s cs = Except.ok s2 ∧
        render_measure s2 = render_measure s ++ nonws cs ∧
        s2.full_response = s.full_response := by
  induction cs with
  | nil =>
    intro s
    refine ⟨s, rfl, ?_, rfl⟩
    simp [nonws]
  | cons c cs ih =>
    intro s
    obtain ⟨s1, h1, h2, h3⟩ := process_char_ok s c
    obtain ⟨s2, h4, h5, h6⟩ := ih s1
    refine ⟨s2, ?_, ?_, ?_⟩
    · rw [List.foldlM_cons, h1]
      simpa using h4
    · rw [h5, h2]
      rw [show nonws (c :: cs) = nonws [c] ++ nonws cs from nonws_append [c] cs]
      simp [List.append_assoc]
    · rw [h6, h3]

theorem process_chunk_ok (chunk : Str) (s : RenderState) :
    ∃ s2, process_chunk (fun _ => true) s chunk = Except.ok s2 ∧
      render_measure s2 = render_measure s ++ nonws chunk ∧
      s2.full_response = s.full_response ++ chunk := by
  unfold process_chunk
  by_cases hc : chunk = []
  · rw [if_pos hc]
    subst hc
    refine ⟨s, rfl, ?_, ?_⟩
    · simp [nonws]
    · simp
  · rw [if_neg hc]
    obtain ⟨s2, h1, h2, h3⟩ :=
      foldlM_process_char_ok chunk { s with full_response := s.full_response ++ chunk }
    exact ⟨s2, h1, h2, h3⟩

theorem run_fragments_ok (chunks : List Str) :
    ∀ s : RenderState,
      ∃ s2, run_fragments (fun _ => true) s (chunks.map Except.ok) = Except.ok s2 ∧
        render_measure s2 = render_measure s ++ nonws chunks.flatten ∧
        s2.full_response = s.full_response ++ chunks.flatten := by
  induction chunks with
  | nil =>
    intro s
    refine ⟨s, rfl, ?_, ?_⟩
    · simp [nonws]
    · simp
  | cons c cs ih =>
    intro s
    obtain ⟨s1, h1, h2, h3⟩ := process_chunk_ok c s
    obtain ⟨s2, h4, h5, h6⟩ := ih s1
    refine ⟨s2, ?_, ?_, ?_⟩
    · rw [List.map_cons]
      show Except.bind (process_chunk (fun _ => true) s c) _ = _
      rw [h1]
      simpa using h4
    · rw [h5, h2, List.flatten_cons, nonws_append]
      simp [List.append_assoc]
    · rw [h6, h3, List.flatten_cons]
      simp [List.append_assoc]

theorem finish_stream_ok (s : RenderState) :
    ∃ s2, finish_stream (fun _ => true) s = Except.ok s2 ∧
      nonws s2.outputs.flatten = render_measure s ∧
      s2.full_response = s.full_response := by
  unfold finish_stream
  by_cases hl : s.current_line = []
  · have hinner : (if s.current_line ≠ [] then
        { s with buffer := s.buffer ++ s.current_line } else s) = s := by
      rw [if_neg (fun hcon => hcon hl)]
    rw [hinner]
    by_cases hb : s.buffer = []
    · rw [if_neg (fun hcon => hcon hb)]
      refine ⟨s, rfl, ?_, rfl⟩
      simp [render_measure, hb, hl, nonws]
    · rw [if_pos hb]
      refine ⟨_, rfl, ?_, rfl⟩
      simp [render_measure, hl, nonws_append, nonws]
  · have hinner : (if s.current_line ≠ [] then
        { s with buffer := s.buffer ++ s.current_line } else s) =
        { s with buffer := s.buffer ++ s.current_line } := by
      rw [if_pos hl]
    rw [hinner]
    have hbe : s.buffer ++ s.current_line ≠ [] := by
      intro hcon
      rcases List.append_eq_nil.mp hcon with ⟨_, h2⟩
      exact hl h2
    rw [if_pos (show ({ s with buffer := s.buffer ++ s.current_line } :
      RenderState).buffer ≠ [] from hbe)]
    refine ⟨_, rfl, ?_, rfl⟩
    simp [render_measure, nonws_append, nonws]

theorem stream_delivers_all (chunks : List Str) :
    ∃ outs, stream_and_render_response (fun _ => true) (chunks.map Except.ok) =
      Except.ok (chunks.flatten, outs) ∧
        nonws outs.flatten = nonws chunks.flatten := by
  obtain ⟨s2, h1, h2, h3⟩ := run_fragments_ok chunks initial_render_state
  obtain ⟨s3, h4, h5, h6⟩ := finish_stream_ok s2
  refine ⟨s3.outputs, ?_, ?_⟩
  · unfold stream_and_render_response
    rw [h1]
    show Except.map _ (finish_stream _ s2) = _
    rw [h4]
    have hfull : s3.full_response = chunks.flatten := by
      rw [h6, h3]
      rfl
    simp [Except.map, hfull]
  · rw [h5, h2]
    rfl

/-- C6.  With a display sink that accepts every block, the renderer
delivers every non-whitespace character of the consumed fragment stream to
the sink exactly once and in order: the non-whitespace subsequence of the
concatenated delivered blocks (separators included) equals the
non-whitespace subsequence of the concatenated input chunks, and the full
response text is returned intact. -/
theorem c6_renderer_preserves_characters (chunks : List Str) :
    ∃ outs, stream_and_render_response (fun _ => true) (chunks.map Except.ok) =
      Except.ok (chunks.flatten, outs) ∧
        nonws outs.flatten = nonws chunks.flatten :=
  stream_delivers_all chunks

/-- C7.  A stream with an odd number of fence-marker lines (an unclosed
final fence) still has all content flushed by the end-of-stream handling:
nothing is held back from the display sink. -/
theorem c7_unclosed_fence_flushed (chunks : List Str)
    (hodd : fence_marker_count chunks.flatten % 2 = 1) :
    ∃ outs, stream_and_render_response (fun _ => true) (chunks.map Except.ok) =
      Except.ok (chunks.flatten, outs) ∧
        nonws outs.flatten = nonws chunks.flatten :=
  stream_delivers_all chunks

/-- Witness for C7: a fence opened and never closed. -/
theorem c7_unclosed_fence_flushed_witness :
    fence_marker_count ["```\ncode".toList].flatten % 2 = 1 ∧
      (∃ outs, stream_and_render_response (fun _ => true)
          (["```\ncode".toList].map Except.ok) =
        Except.ok (["```\ncode".toList].flatten, outs) ∧
          nonws outs.flatten = nonws ["```\ncode".toList].flatten) :=
  ⟨by decide, c7_unclosed_fence_flushed ["```\ncode".toList] (by decide)⟩

instance {e a : Type} [DecidableEq e] [DecidableEq a] : DecidableEq (Except e a) :=
  fun x y =>
    match x, y with
    | Except.ok v, Except.ok w =>
      if h : v = w then Decidable.isTrue (h ▸ rfl)
      else Decidable.isFalse (fun hc => h (Except.ok.inj hc))
    | Except.error v, Except.error w =>
      if h : v = w then Decidable.isTrue (h ▸ rfl)
      else Decidable.isFalse (fun hc => h (Except.error.inj hc))
    | Except.ok _, Except.error _ => Decidable.isFalse (fun hc => Except.noConfusion hc)
    | Except.error _, Except.ok _ => Decidable.isFalse (fun hc => Except.noConfusion hc)

/-- C5 (behaviour at a failing sink).  When the display sink rejects the
first flushed block, the `?` operator aborts `stream_and_render_response`:
the remaining fragments are never consumed and the accumulated response is
not returned — the function yields an error.  With an accepting sink the
same input streams fine. -/
theorem c5_render_failure_aborts_stream :
    stream_and_render_response (fun _ => false)
        [Except.ok "hello\n\nworld\n".toList, Except.ok "more".toList] =
      Except.error () ∧
      stream_and_render_response (fun _ => true)
          [Except.ok "hello\n\nworld\n".toList, Except.ok "more".toList] =
        Except.ok ("hello\n\nworld\nmore".toList,
          ["hello\n".toList, "\n".toList, "world\nmore".toList]) := by
  constructor
  · decide
  · decide
